import Mathlib

/-!
Verification of the DroidX catalog-query API.

The definitions below are a shallow embedding of the Python source under
`src/api/` (apps.py, categories.py, search.py, latest.py, random.py,
index.py).  Records are JSON dictionaries in the source; here they are
structures with `Option`-valued fields (a `none` field models an absent
key).  Python values that may be either a string or an integer (the raw
values handed to `sorted` as keys) are modelled by `PyVal`.  Fallible
Python code (a raised `TypeError` or `KeyError`, or an error response)
is modelled with `Except ApiError`.
-/

/-- A Python value appearing as a sort key: either a string or an integer.
`x.get(field, '')` in the source can yield either the stored value or the
string default, so keys genuinely mix both constructors. -/
inductive PyVal where
  | str (s : String)
  | int (n : Int)
deriving DecidableEq, Repr

def PyVal.isStrV : PyVal → Bool
  | .str _ => true
  | .int _ => false

def PyVal.isIntV : PyVal → Bool
  | .str _ => false
  | .int _ => true

/-- Error outcomes of the embedded operations: `typeError` models a Python
`TypeError` raised by `sorted` on incomparable keys, `keyError` a `KeyError`
from a missing dictionary key, and the rest model the endpoint error
responses (404 category/app miss, 400 parameter errors, empty repository). -/
inductive ApiError where
  | typeError
  | keyError (field : String)
  | notFound
  | invalidSort
  | invalidOrder
  | invalidLimit
  | noApps
deriving DecidableEq, Repr

/-- One catalog entry, as the JSON dictionaries under the `apps` key.
`none` models an absent field. -/
structure AppRecord where
  id : Option String := none
  name : Option String := none
  summary : Option String := none
  description : Option String := none
  version : Option String := none
  versionCode : Option PyVal := none
  categories : List String := []
  last_updated : Option String := none
deriving DecidableEq, Repr

/-- Test whether `pre` is a leading segment of `l` (character lists). -/
def charsPre : List Char → List Char → Bool
  | [], _ => true
  | _ :: _, [] => false
  | a :: as, b :: bs => a = b && charsPre as bs

/-- Membership of `needle` as a contiguous segment of `hay`, at any
position; this is the semantics of the Python expression
`needle in hay` on strings. -/
def charsSeg (needle : List Char) : List Char → Bool
  | [] => charsPre needle []
  | b :: bs => charsPre needle (b :: bs) || charsSeg needle bs

/-- Python `needle in hay` for strings. -/
def pyInStr (needle hay : String) : Bool :=
  charsSeg needle.data hay.data

/-- Python `s.lower()`: lowercase the string character by character
(the records in play are ASCII, where this agrees with Python). -/
def pyLower (s : String) : String :=
  String.mk (s.data.map Char.toLower)

/-- Python truthiness of an optional string: `None` and the empty string
are falsy, every other string is truthy. -/
def truthyStr : Option String → Bool
  | none => false
  | some s => !(s = "")

/-- The four sort fields accepted by the list endpoints
(`['name', 'version', 'versionCode', 'id']`). -/
inductive SortField where
  | name
  | version
  | versionCode
  | id
deriving DecidableEq, Repr

/-- Key extraction of `apps.py` line 33 (and the identical lines of
categories.py and search.py): `lambda x: x.get(sort_by, '')`.  A missing
field contributes the default `''`; a present `versionCode` contributes
the raw stored value, which may be an integer or a string. -/
def sortKey : SortField → AppRecord → PyVal
  | .name, r => .str (r.name.getD "")
  | .version, r => .str (r.version.getD "")
  | .id, r => .str (r.id.getD "")
  | .versionCode, r => r.versionCode.getD (.str "")

/-- Python `<` on two sort keys of the same constructor: numeric on two
integers, lexicographic on two strings.  On mixed constructors Python
raises `TypeError` instead of returning a value; `sortApps` rejects any
key list mixing the two constructors before this function is consulted,
so the value returned on the two mixed branches is never observable
there; the branches merely extend `<` to a total strict order on `PyVal`
so that the comparison is transitive as a whole. -/
def pvLtB : PyVal → PyVal → Bool
  | .int a, .int b => a < b
  | .str a, .str b => a < b
  | .int _, .str _ => true
  | .str _, .int _ => false

/-- The `le` relation fed to the stable sort.  Ascending Python
`sorted(l, key=k)` keeps `a` before `b` whenever `k(b) < k(a)` fails;
`sorted(l, key=k, reverse=True)` is also stable (ties keep the original
order) and keeps `a` before `b` whenever `k(a) < k(b)` fails. -/
def sortLe (f : SortField) (desc : Bool) (a b : AppRecord) : Bool :=
  if desc then !(pvLtB (sortKey f a) (sortKey f b))
  else !(pvLtB (sortKey f b) (sortKey f a))

/-- A key list is comparable exactly when all keys are integers or all
keys are strings.  A comparison sort over a list containing keys of both
constructors must compare an integer with a string at least once, and
that comparison raises `TypeError` in Python; a homogeneous key list
never raises. -/
def keysComparable (ks : List PyVal) : Bool :=
  ks.all PyVal.isIntV || ks.all PyVal.isStrV

/-- The sort of `apps.py` line 33 / `categories.py` line 64 /
`search.py` line 49: `sorted(seq, key=lambda x: x.get(sort_by, ''),
reverse=(order == 'desc'))`, a stable sort on extracted keys that raises
`TypeError` when the keys mix integers and strings. -/
def sortApps (f : SortField) (desc : Bool) (apps : List AppRecord) :
    Except ApiError (List AppRecord) :=
  if keysComparable (apps.map (sortKey f)) then
    .ok (apps.mergeSort (sortLe f desc))
  else
    .error .typeError

/-- Normalisation of a Python slice endpoint against a list of length
`n`: a negative index counts from the end (clamped below at 0), a
non-negative index is clamped above at `n`. -/
def sliceIdx (n : Nat) (i : Int) : Nat :=
  if i < 0 then (Int.ofNat n + i).toNat else min i.toNat n

/-- Python `l[start:stop]` (step 1); `stop = none` models `l[start:]`. -/
def pySlice (l : List α) (start : Int) (stop : Option Int) : List α :=
  let a := sliceIdx l.length start
  let b := match stop with
    | none => l.length
    | some s => sliceIdx l.length s
  (l.drop a).take (b - a)

/-- Pagination of `apps.py` lines 37-40 (and the identical lines of
categories.py and search.py): `sorted_apps[offset:offset + limit]` when
`limit` is truthy, `sorted_apps[offset:]` when `limit` is `None` or `0`
(`if limit:` treats `0` as falsy). -/
def paginate (l : List α) (offset : Int) (limit : Option Int) : List α :=
  match limit with
  | some lim =>
      if lim = 0 then pySlice l offset none
      else pySlice l offset (some (offset + lim))
  | none => pySlice l offset none

/-- The response body of the list endpoints: `total` is computed before
pagination, `count` is the length of the returned page. -/
structure ListResponse where
  total : Nat
  count : Nat
  results : List AppRecord
deriving DecidableEq, Repr

/-- Membership test of `sort_by` in `['name', 'version', 'versionCode',
'id']`, returning the matched field. -/
def fieldOfString (s : String) : Option SortField :=
  if s = "name" then some .name
  else if s = "version" then some .version
  else if s = "versionCode" then some .versionCode
  else if s = "id" then some .id
  else none

/-- The `/api/apps` handler of `apps.py` (lines 19-46) after query-string
parsing: validate the sort field, then the order, then sort, paginate and
build the response.  The offset is any integer (no sign check appears in
the source) and the limit is `None` or any integer. -/
def getApps (apps : List AppRecord) (limit : Option Int) (offset : Int)
    (sortBy order : String) : Except ApiError ListResponse :=
  match fieldOfString sortBy with
  | none => .error .invalidSort
  | some f =>
      if order = "asc" || order = "desc" then do
        let sortedApps ← sortApps f (order = "desc") apps
        let page := paginate sortedApps offset limit
        .ok ⟨sortedApps.length, page.length, page⟩
      else .error .invalidOrder

/-- The record predicate of `DataStore.search_apps` (`index.py` lines
155-165): the lowercased query occurs in the lowercased `name`,
`summary`, `description` or `id`, an absent field standing in for `''`
via `(app.get(field) or '')`. -/
def matchRecord (ql : String) (r : AppRecord) : Bool :=
  pyInStr ql (pyLower (r.name.getD "")) ||
  pyInStr ql (pyLower (r.summary.getD "")) ||
  pyInStr ql (pyLower (r.description.getD "")) ||
  pyInStr ql (pyLower (r.id.getD ""))

/-- `DataStore.search_apps` (`index.py` lines 141-167): lowercase the
query, then walk the snapshot appending every matching record to the
result list. -/
def searchApps (apps : List AppRecord) (query : String) : List AppRecord :=
  apps.foldl
    (fun results r =>
      if matchRecord (pyLower query) r then results ++ [r] else results)
    []

/-- Modelled from the spec: a record matches a free-text query when the
lowercased query is a substring of at least one of the four fields
`name`, `summary`, `description`, `id`, each lowercased and treated as
the empty string when absent. -/
def specSearchMatch (query : String) (r : AppRecord) : Bool :=
  pyInStr (pyLower query) (pyLower (r.name.getD "")) ||
  pyInStr (pyLower query) (pyLower (r.summary.getD "")) ||
  pyInStr (pyLower query) (pyLower (r.description.getD "")) ||
  pyInStr (pyLower query) (pyLower (r.id.getD ""))

/-- The filter condition of `search.py` lines 38-41:
`query in app['name'].lower() or query in app['summary'].lower()`.
`app['name']` raises `KeyError` on a record without `name`;
`app['summary']` is only reached (and only raises) when the name test
fails, because `or` short-circuits. -/
def searchRecordPy (ql : String) (r : AppRecord) : Except ApiError Bool :=
  match r.name with
  | none => .error (.keyError "name")
  | some n =>
      if pyInStr ql (pyLower n) then .ok true
      else
        match r.summary with
        | none => .error (.keyError "summary")
        | some s => .ok (pyInStr ql (pyLower s))

/-- The list comprehension of `search.py` lines 38-41, evaluated left to
right; the first raised `KeyError` aborts the whole request. -/
def searchFilterPy (apps : List AppRecord) (ql : String) :
    Except ApiError (List AppRecord) :=
  match apps with
  | [] => .ok []
  | r :: rest => do
      let b ← searchRecordPy ql r
      let others ← searchFilterPy rest ql
      .ok (if b then r :: others else others)

/-- Sort key of `/latest` in `index.py` line 726:
`lambda x: x.get('last_updated', '')`. -/
def luKey (r : AppRecord) : String :=
  r.last_updated.getD ""

/-- Stable descending order on `last_updated` strings
(`reverse=True` keeps ties in original order). -/
def latestLe (a b : AppRecord) : Bool :=
  !(luKey a < luKey b)

/-- The `/latest` handler of `index.py` (lines 711-738) after parameter
parsing: reject a supplied limit below 1, keep the records whose
`last_updated` is truthy, sort them by `last_updated` descending
(stable), and cap at the limit when one was supplied (`if limit:` is
only reached with `limit` either `None` or at least 1). -/
def getLatest (apps : List AppRecord) (limit : Option Int) :
    Except ApiError (List AppRecord) :=
  match limit with
  | some n =>
      if n < 1 then .error .invalidLimit
      else
        .ok (((apps.filter (fun r => truthyStr r.last_updated)).mergeSort
          latestLe).take n.toNat)
  | none =>
      .ok ((apps.filter (fun r => truthyStr r.last_updated)).mergeSort
        latestLe)

/-- Sort key of `/api/latest` in `latest.py` line 23:
`lambda x: x.get('versionCode', 0)` - the default here is the integer 0,
unlike the `''` default of the list endpoints. -/
def vcKey0 (r : AppRecord) : PyVal :=
  r.versionCode.getD (.int 0)

/-- The `/api/latest` handler of `latest.py` (lines 16-33): the limit
defaults to 10 when the query parameter is absent; all records are
sorted by `versionCode` descending (stable, `TypeError` on mixed key
types) with no filtering on `last_updated`, then `sorted_apps[:limit]`
is returned when the limit is truthy and the whole list when it is 0. -/
def getLatestApps (apps : List AppRecord) (limitArg : Option Int) :
    Except ApiError (List AppRecord) :=
  let lim : Int := limitArg.getD 10
  if keysComparable (apps.map vcKey0) then
    let sortedApps := apps.mergeSort (fun a b => !(pvLtB (vcKey0 a) (vcKey0 b)))
    .ok (if lim = 0 then sortedApps else pySlice sortedApps 0 (some lim))
  else .error .typeError

/-- The category stage of `get_apps_by_category` (`categories.py` lines
49-62): build the set of every category of every record, answer 404 when
the requested name is not in that set, and otherwise keep the records
whose `categories` list contains the name.  The set is used only for one
membership test, so it is modelled by that test. -/
def getAppsByCategoryStage (apps : List AppRecord) (name : String) :
    Except ApiError (List AppRecord) :=
  if apps.any (fun r => r.categories.contains name) then
    .ok (apps.filter (fun r => r.categories.contains name))
  else .error .notFound

/-- One step of the counting dictionary of `get_all_categories`
(`index.py` line 196): `categories[cat] = categories.get(cat, 0) + 1`.
A Python dict preserves first-insertion order, so the model is an
association list: an existing key is bumped in place, a new key is
appended. -/
def bumpCat (m : List (String × Nat)) (c : String) : List (String × Nat) :=
  if m.any (fun p => p.1 = c) then
    m.map (fun p => if p.1 = c then (p.1, p.2 + 1) else p)
  else m ++ [(c, 1)]

/-- The counting loop of `get_all_categories` (`index.py` lines
191-196): every category occurrence of every record bumps its counter,
except falsy (empty) category names, which `if cat:` skips. -/
def countCats (apps : List AppRecord) : List (String × Nat) :=
  apps.foldl
    (fun m r =>
      r.categories.foldl (fun m2 c => if c = "" then m2 else bumpCat m2 c) m)
    []

/-- Stable descending order on counts (`key=lambda x: x[1],
reverse=True`); ties keep dictionary (first-encounter) order. -/
def catCountLe (a b : String × Nat) : Bool :=
  !(a.2 < b.2)

/-- `DataStore.get_all_categories` (`index.py` lines 184-205): count the
category occurrences, then sort the `(name, count)` pairs by count
descending with a stable sort and no further tie-break. -/
def getAllCategories (apps : List AppRecord) : List (String × Nat) :=
  (countCats apps).mergeSort catCountLe

/-- The category stage of `get_category_apps` (`index.py` lines
675-692): filter first; on an empty result consult
`get_all_categories` to decide between 404 (unknown category) and an
empty success. -/
def getCategoryApps (apps : List AppRecord) (name : String) :
    Except ApiError (List AppRecord) :=
  let res := apps.filter (fun r => r.categories.contains name)
  if res.isEmpty then
    if (getAllCategories apps).any (fun c => c.1 = name) then .ok res
    else .error .notFound
  else .ok res

/-- The `/random` handler (`index.py` lines 755-766, and the identical
logic of `random.py` lines 17-23): an empty snapshot answers the
no-apps error; otherwise `random.choice(apps)` returns the entry at an
arbitrary in-range index, modelled by the draw `d` reduced modulo the
length. -/
def getRandomApp (apps : List AppRecord) (d : Nat) : Except ApiError AppRecord :=
  match apps with
  | [] => .error .noApps
  | a :: rest =>
      .ok ((a :: rest).get ⟨d % (a :: rest).length, Nat.mod_lt _ (Nat.succ_pos _)⟩)

/-- Sample record: name Alpha, versionCode 1, category Tools. -/
def rAlpha : AppRecord :=
  { id := some "a.alpha", name := some "Alpha",
    versionCode := some (.int 1), categories := ["Tools"] }

/-- Sample record: name Beta, versionCode 3, category Games, dated. -/
def rBeta : AppRecord :=
  { id := some "b.beta", name := some "Beta",
    versionCode := some (.int 3), categories := ["Games"],
    last_updated := some "2024-01-01" }

/-- Sample record with no versionCode field. -/
def rNoCode : AppRecord :=
  { id := some "c.nocode", name := some "Gamma" }

/-- Sample record whose description contains the token foo but whose
name and summary do not. -/
def rDescFoo : AppRecord :=
  { id := some "com.d", name := some "X", summary := some "Y",
    description := some "has foo inside" }

/-- Sample record lacking the summary field. -/
def rNoSummary : AppRecord :=
  { id := some "com.e", name := some "X" }

/-- Sample record in category Games only. -/
def recGames : AppRecord := { id := some "g", categories := ["Games"] }

/-- Sample record in categories Games and Tools. -/
def recBoth : AppRecord := { id := some "gt", categories := ["Games", "Tools"] }

/-- Sample record in category Tools only. -/
def recTools : AppRecord := { id := some "t", categories := ["Tools"] }

/-- Sample record carrying only a last_updated date. -/
def rDated : AppRecord := { id := some "d", last_updated := some "2024-05-05" }

/-- Sample record with a versionCode but no last_updated field. -/
def rCodeNoDate : AppRecord :=
  { id := some "e", versionCode := some (.int 5) }

/-- The integer carried by a versionCode sort key, 0 on a string key;
used to state what the sort guarantees when every key is an integer. -/
def vcIntOf (r : AppRecord) : Int :=
  match sortKey .versionCode r with
  | .int n => n
  | .str _ => 0

/-!  Order-theoretic facts about the Python comparison on sort keys. -/

theorem pvLtB_asymm : ∀ {x y : PyVal}, pvLtB x y = true → pvLtB y x = false
  | .str _, .str _, h => decide_eq_false (lt_asymm (of_decide_eq_true h))
  | .int _, .int _, h => decide_eq_false (lt_asymm (of_decide_eq_true h))
  | .int _, .str _, _ => rfl
  | .str _, .int _, h => Bool.noConfusion h

theorem pvLtB_cross :
    ∀ {x y z : PyVal}, pvLtB x z = true → pvLtB x y = true ∨ pvLtB y z = true
  | .int a, .int b, .int _, h => by
      rcases lt_or_le a b with h2 | h2
      · exact Or.inl (decide_eq_true h2)
      · exact Or.inr (decide_eq_true (lt_of_le_of_lt h2 (of_decide_eq_true h)))
  | .str a, .str b, .str _, h => by
      rcases lt_or_le a b with h2 | h2
      · exact Or.inl (decide_eq_true h2)
      · exact Or.inr (decide_eq_true (lt_of_le_of_lt h2 (of_decide_eq_true h)))
  | .int _, .int _, .str _, _ => Or.inr rfl
  | .int _, .str _, .int _, _ => Or.inl rfl
  | .int _, .str _, .str _, _ => Or.inl rfl
  | .str _, .int _, .int _, h => by simp [pvLtB] at h
  | .str _, .int _, .str _, _ => Or.inr rfl
  | .str _, .str _, .int _, h => by simp [pvLtB] at h

theorem sortLe_trans (f : SortField) (desc : Bool) (a b c : AppRecord)
    (h1 : sortLe f desc a b = true) (h2 : sortLe f desc b c = true) :
    sortLe f desc a c = true := by
  cases desc <;>
    simp only [sortLe, if_true, if_false, Bool.not_eq_true',
      Bool.false_eq_true, Bool.true_eq_false, ite_true, ite_false] at h1 h2 ⊢
  · cases hval : pvLtB (sortKey f c) (sortKey f a)
    · rfl
    · rcases pvLtB_cross hval with h | h
      · rw [h2] at h; exact Bool.noConfusion h
      · rw [h1] at h; exact Bool.noConfusion h
  · cases hval : pvLtB (sortKey f a) (sortKey f c)
    · rfl
    · rcases pvLtB_cross hval with h | h
      · rw [h1] at h; exact Bool.noConfusion h
      · rw [h2] at h; exact Bool.noConfusion h

theorem sortLe_total (f : SortField) (desc : Bool) (a b : AppRecord) :
    (sortLe f desc a b || sortLe f desc b a) = true := by
  cases desc
  · cases hx : pvLtB (sortKey f b) (sortKey f a)
    · simp [sortLe, hx]
    · simp [sortLe, pvLtB_asymm hx]
  · cases hx : pvLtB (sortKey f a) (sortKey f b)
    · simp [sortLe, hx]
    · simp [sortLe, pvLtB_asymm hx]

theorem all_perm_eq {α : Type} {p : α → Bool} {l1 l2 : List α}
    (h : l1.Perm l2) : l1.all p = l2.all p := by
  rw [Bool.eq_iff_iff]
  simp only [List.all_eq_true]
  exact ⟨fun hh x hx => hh x (h.mem_iff.mpr hx),
    fun hh x hx => hh x (h.mem_iff.mp hx)⟩

theorem keysComparable_perm (f : SortField) {l1 l2 : List AppRecord}
    (h : l1.Perm l2) :
    keysComparable (l1.map (sortKey f)) = keysComparable (l2.map (sortKey f)) := by
  have hm := h.map (sortKey f)
  simp only [keysComparable, all_perm_eq hm]

theorem latestLe_trans (a b c : AppRecord) (h1 : latestLe a b = true)
    (h2 : latestLe b c = true) : latestLe a c = true := by
  simp only [latestLe, Bool.not_eq_true', decide_eq_false_iff_not, not_lt] at h1 h2 ⊢
  exact h2.trans h1

theorem latestLe_total (a b : AppRecord) : (latestLe a b || latestLe b a) = true := by
  simp only [latestLe, Bool.or_eq_true, Bool.not_eq_true',
    decide_eq_false_iff_not, not_lt]
  exact le_total (luKey b) (luKey a)

theorem catCountLe_trans (a b c : String × Nat) (h1 : catCountLe a b = true)
    (h2 : catCountLe b c = true) : catCountLe a c = true := by
  simp only [catCountLe, Bool.not_eq_true', decide_eq_false_iff_not, not_lt] at h1 h2 ⊢
  omega

theorem catCountLe_total (a b : String × Nat) :
    (catCountLe a b || catCountLe b a) = true := by
  simp only [catCountLe, Bool.or_eq_true, Bool.not_eq_true',
    decide_eq_false_iff_not, not_lt]
  omega

/-- Claim C8: for every snapshot and every sort field in name, version,
versionCode, id paired with either order, applying the sort and then the
same sort again yields the same sequence as applying it once - whenever
the first sort completes, re-sorting its output is the identity, because
the stable sort leaves an already-sorted list untouched. -/
theorem sort_idempotent (f : SortField) (desc : Bool) (apps l : List AppRecord)
    (h : sortApps f desc apps = .ok l) : sortApps f desc l = .ok l := by
  unfold sortApps at h ⊢
  split at h
  · rename_i hc
    injection h with h2
    subst h2
    rw [keysComparable_perm f (List.mergeSort_perm apps (sortLe f desc)), if_pos hc,
      List.mergeSort_of_sorted
        (List.sorted_mergeSort (sortLe_trans f desc) (sortLe_total f desc) apps)]
  · exact Except.noConfusion h

/-- Witness for sort_idempotent at a concrete two-record snapshot. -/
theorem sort_idempotent_witness :
    sortApps .name false [rAlpha, rBeta] = .ok [rAlpha, rBeta] :=
  sort_idempotent .name false [rBeta, rAlpha] [rAlpha, rBeta] (by
    simp [sortApps, keysComparable, sortKey, List.mergeSort, List.merge, sortLe,
      pvLtB, rAlpha, rBeta, PyVal.isStrV, PyVal.isIntV]
    decide)

/-- Claim C1 counterexample: a record without versionCode contributes
the key '' (the empty string), not the key 0, and sorting it next to a
record with an integer versionCode raises TypeError instead of placing
it below the positive codes. -/
theorem versionCode_missing_key_counterexample :
    sortApps .versionCode false [rBeta, rNoCode] = .error .typeError ∧
    sortKey .versionCode rNoCode ≠ .int 0 ∧
    sortKey .versionCode rNoCode = .str "" := by
  refine ⟨rfl, by decide, rfl⟩

/-- Claim C1 (amended): sorting by versionCode uses the raw stored value
as key with a missing versionCode contributing the empty string.  When
every record has an integer versionCode the comparison is numeric (the
sort succeeds and orders the integer codes); when the snapshot mixes
integer codes with missing or string codes, the sort raises TypeError
rather than treating the missing value as 0. -/
theorem versionCode_sort_amended :
    (∀ (apps : List AppRecord) (desc : Bool),
        (∀ r ∈ apps, ∃ n : Int, r.versionCode = some (.int n)) →
        ∃ l, sortApps .versionCode desc apps = .ok l ∧ l.Perm apps ∧
          (desc = false → l.Pairwise (fun a b => vcIntOf a ≤ vcIntOf b)) ∧
          (desc = true → l.Pairwise (fun a b => vcIntOf b ≤ vcIntOf a))) ∧
    (∀ (apps : List AppRecord) (desc : Bool),
        (∃ r ∈ apps, ∃ n : Int, r.versionCode = some (.int n)) →
        (∃ r ∈ apps, r.versionCode = none) →
        sortApps .versionCode desc apps = .error .typeError) := by
  constructor
  · intro apps desc hall
    have hallint : (apps.map (sortKey .versionCode)).all PyVal.isIntV = true := by
      rw [List.all_eq_true]
      intro x hx
      rcases List.mem_map.mp hx with ⟨r, hr, rfl⟩
      rcases hall r hr with ⟨n, hn⟩
      simp [sortKey, hn, PyVal.isIntV]
    have hcomp : keysComparable (apps.map (sortKey .versionCode)) = true := by
      unfold keysComparable
      rw [hallint]
      rfl
    have hperm := List.mergeSort_perm apps (sortLe .versionCode desc)
    refine ⟨apps.mergeSort (sortLe .versionCode desc), ?_, hperm, ?_, ?_⟩
    · unfold sortApps
      rw [if_pos hcomp]
    · rintro rfl
      have hs := List.sorted_mergeSort (sortLe_trans .versionCode false)
        (sortLe_total .versionCode false) apps
      refine hs.imp_of_mem ?_
      intro a b ha hb hle
      have hperm2 := List.mergeSort_perm apps (sortLe .versionCode false)
      rcases hall a (hperm2.subset ha) with ⟨na, hna⟩
      rcases hall b (hperm2.subset hb) with ⟨nb, hnb⟩
      simp [sortLe, sortKey, hna, hnb, pvLtB, vcIntOf] at hle ⊢
      omega
    · rintro rfl
      have hs := List.sorted_mergeSort (sortLe_trans .versionCode true)
        (sortLe_total .versionCode true) apps
      refine hs.imp_of_mem ?_
      intro a b ha hb hle
      have hperm2 := List.mergeSort_perm apps (sortLe .versionCode true)
      rcases hall a (hperm2.subset ha) with ⟨na, hna⟩
      rcases hall b (hperm2.subset hb) with ⟨nb, hnb⟩
      simp [sortLe, sortKey, hna, hnb, pvLtB, vcIntOf] at hle ⊢
      omega
  · rintro apps desc ⟨r1, hr1, n, hn⟩ ⟨r2, hr2, hn2⟩
    have hcomp : keysComparable (apps.map (sortKey .versionCode)) = false := by
      unfold keysComparable
      rw [Bool.or_eq_false_iff]
      constructor
      · rw [List.all_eq_false]
        exact ⟨sortKey .versionCode r2, List.mem_map_of_mem _ hr2,
          by simp [sortKey, hn2, PyVal.isIntV]⟩
      · rw [List.all_eq_false]
        exact ⟨sortKey .versionCode r1, List.mem_map_of_mem _ hr1,
          by simp [sortKey, hn, PyVal.isStrV]⟩
    simp [sortApps, hcomp]

/-- Witness for versionCode_sort_amended at concrete snapshots: two
integer-coded records sort, and an integer-coded record next to a record
without versionCode raises TypeError. -/
theorem versionCode_sort_amended_witness :
    (∃ l, sortApps .versionCode false [rBeta, rAlpha] = .ok l ∧
       l.Perm [rBeta, rAlpha] ∧
       (false = false → l.Pairwise (fun a b => vcIntOf a ≤ vcIntOf b)) ∧
       (false = true → l.Pairwise (fun a b => vcIntOf b ≤ vcIntOf a))) ∧
    sortApps .versionCode false [rBeta, rNoCode] = .error .typeError := by
  constructor
  · refine versionCode_sort_amended.1 [rBeta, rAlpha] false ?_
    intro r hr
    rcases List.mem_cons.mp hr with rfl | hr
    · exact ⟨3, rfl⟩
    · rcases List.mem_cons.mp hr with rfl | hr
      · exact ⟨1, rfl⟩
      · cases hr
  · exact versionCode_sort_amended.2 [rBeta, rNoCode] false
      ⟨rBeta, by simp, 3, rfl⟩ ⟨rNoCode, by simp, rfl⟩

theorem searchApps_aux (q : String) :
    ∀ (apps acc : List AppRecord),
      apps.foldl
        (fun results r => if matchRecord (pyLower q) r then results ++ [r] else results)
        acc = acc ++ apps.filter (fun r => matchRecord (pyLower q) r)
  | [], acc => by simp
  | r :: rest, acc => by
      by_cases hp : matchRecord (pyLower q) r = true
      · simp [List.foldl_cons, hp, searchApps_aux q rest, List.filter_cons]
      · simp [List.foldl_cons, hp, searchApps_aux q rest, List.filter_cons]

/-- Claim C2 counterexample: the standalone search endpoint of search.py
matches only name and summary, so a record whose description alone holds
the query is dropped there while the DataStore search keeps it; and a
record lacking the summary field makes that endpoint raise KeyError. -/
theorem search_endpoint_counterexample :
    searchApps [rDescFoo] "foo" = [rDescFoo] ∧
    searchFilterPy [rDescFoo] "foo" = .ok [] ∧
    searchFilterPy [rNoSummary] "zz" = .error (.keyError "summary") :=
  ⟨rfl, rfl, rfl⟩

/-- Claim C2 (amended): the DataStore search of index.py returns exactly
the records for which the lowercased query is a substring of one of the
four lowercased fields name, summary, description, id (absent fields
standing in for the empty string), and it never fails; the search.py
endpoint instead matches only name and summary and raises KeyError on a
record lacking name, or lacking summary when the name does not match. -/
theorem search_matches_four_fields :
    ∀ (apps : List AppRecord) (q : String),
      searchApps apps q = apps.filter (specSearchMatch q) := by
  intro apps q
  unfold searchApps
  rw [searchApps_aux q apps []]
  rfl

/-- Claim C3 counterexample: the /api/latest endpoint of latest.py
returns a record that has no last_updated field at all, so records
lacking last_updated do appear in its result. -/
theorem latest_endpoint_counterexample :
    getLatestApps [rCodeNoDate] none = .ok [rCodeNoDate] ∧
    rCodeNoDate.last_updated = none := by
  refine ⟨?_, rfl⟩
  simp [getLatestApps, keysComparable, vcKey0, List.mergeSort, pySlice, sliceIdx,
    rCodeNoDate, PyVal.isIntV, PyVal.isStrV]

/-- Claim C3 (amended): the /latest handler of index.py behaves as
claimed - it keeps exactly records with a truthy last_updated, sorts
them by the last_updated string descending and caps at the optional
limit; the /api/latest endpoint of latest.py instead sorts every record
by versionCode descending with default limit 10 and performs no
last_updated filtering, so records lacking last_updated can appear
there. -/
theorem latest_filters_sorts_caps :
    ∀ (apps : List AppRecord) (limit : Option Int) (l : List AppRecord),
      getLatest apps limit = .ok l →
      (∀ r ∈ l, r ∈ apps ∧ truthyStr r.last_updated = true) ∧
      l.Pairwise (fun a b => luKey b ≤ luKey a) ∧
      (∀ n : Int, limit = some n → l.length ≤ n.toNat) := by
  intro apps limit l h
  have hmem : ∀ r ∈ (apps.filter (fun r => truthyStr r.last_updated)).mergeSort latestLe,
      r ∈ apps ∧ truthyStr r.last_updated = true := by
    intro r hr
    have hr2 := (List.mergeSort_perm _ latestLe).subset hr
    exact List.mem_filter.mp hr2
  have hpair : ((apps.filter (fun r => truthyStr r.last_updated)).mergeSort
      latestLe).Pairwise (fun a b => luKey b ≤ luKey a) := by
    refine (List.sorted_mergeSort latestLe_trans latestLe_total _).imp ?_
    intro a b hab
    simpa only [latestLe, Bool.not_eq_true', decide_eq_false_iff_not, not_lt] using hab
  cases limit with
  | none =>
      simp only [getLatest] at h
      injection h with h2
      subst h2
      exact ⟨hmem, hpair, fun n hn => Option.noConfusion hn⟩
  | some n =>
      simp only [getLatest] at h
      by_cases hn1 : n < 1
      · rw [if_pos hn1] at h
        exact Except.noConfusion h
      · rw [if_neg hn1] at h
        injection h with h2
        subst h2
        refine ⟨fun r hr => hmem r ((List.take_sublist _ _).subset hr),
          List.Pairwise.sublist (List.take_sublist _ _) hpair, ?_⟩
        intro n2 hn2
        injection hn2 with hn3
        subst hn3
        simp [List.length_take]

/-- Witness for latest_filters_sorts_caps at a concrete two-record
snapshot with no limit: the undated record is dropped. -/
theorem latest_filters_sorts_caps_witness :
    (∀ r ∈ ([rDated] : List AppRecord),
        r ∈ [rDated, rCodeNoDate] ∧ truthyStr r.last_updated = true) ∧
    List.Pairwise (fun a b => luKey b ≤ luKey a) [rDated] ∧
    (∀ n : Int, (none : Option Int) = some n →
        ([rDated] : List AppRecord).length ≤ n.toNat) :=
  latest_filters_sorts_caps [rDated, rCodeNoDate] none [rDated] (by
    simp [getLatest, truthyStr, rDated, rCodeNoDate, List.mergeSort,
      List.filter_cons])

theorem pySlice_none_nat {α : Type} (l : List α) (off : Nat) :
    pySlice l (off : Int) none = l.drop off := by
  have h0 : ¬ ((off : Int) < 0) := by omega
  simp only [pySlice, sliceIdx, if_neg h0, Int.toNat_ofNat]
  by_cases hle : off ≤ l.length
  · rw [min_eq_left hle]
    exact List.take_of_length_le (by simp)
  · rw [min_eq_right (by omega)]
    rw [List.drop_length, List.drop_eq_nil_of_le (by omega)]
    simp

theorem pySlice_take_nat {α : Type} (l : List α) (off : Nat) (n : Int) (h : 1 ≤ n) :
    pySlice l (off : Int) (some ((off : Int) + n)) = (l.drop off).take n.toNat := by
  have h0 : ¬ ((off : Int) < 0) := by omega
  have h1 : ¬ ((off : Int) + n < 0) := by omega
  have h2 : ((off : Int) + n).toNat = off + n.toNat := by omega
  simp only [pySlice, sliceIdx, if_neg h0, if_neg h1, Int.toNat_ofNat, h2]
  by_cases hle : off ≤ l.length
  · rw [min_eq_left hle]
    by_cases hk : off + n.toNat ≤ l.length
    · rw [min_eq_left hk]
      congr 1
      omega
    · rw [min_eq_right (by omega)]
      rw [List.take_of_length_le (by simp), List.take_of_length_le (by simp; omega)]
  · rw [min_eq_right (by omega), min_eq_right (by omega)]
    simp [List.drop_length, List.drop_eq_nil_of_le (by omega : l.length ≤ off)]

theorem paginate_some_pos {α : Type} (l : List α) (off : Nat) (n : Int) (h : 1 ≤ n) :
    paginate l (off : Int) (some n) = (l.drop off).take n.toNat := by
  simp only [paginate, if_neg (by omega : ¬ n = 0)]
  exact pySlice_take_nat l off n h

theorem paginate_none_nat {α : Type} (l : List α) (off : Nat) :
    paginate l (off : Int) none = l.drop off := by
  simp only [paginate]
  exact pySlice_none_nat l off

theorem keysComparable_name (apps : List AppRecord) :
    keysComparable (apps.map (sortKey .name)) = true := by
  unfold keysComparable
  have hall : (apps.map (sortKey .name)).all PyVal.isStrV = true := by
    rw [List.all_eq_true]
    intro x hx
    rcases List.mem_map.mp hx with ⟨r, hr, rfl⟩
    rfl
  rw [hall, Bool.or_true]

/-- Claim C4 counterexample: with offset 0 and an explicitly supplied
limit of 0 the code returns the whole two-record sequence, not the empty
slice from index 0 to index 0 that the claimed clipped-slice semantics
require for a supplied limit. -/
theorem paginate_zero_limit_counterexample :
    paginate [rAlpha, rBeta] 0 (some 0) = [rAlpha, rBeta] ∧
    paginate [rAlpha, rBeta] 0 (some 0) ≠ ([] : List AppRecord) := by
  exact ⟨by decide, by decide⟩

/-- Claim C4 (amended): for offset at least 0 and a supplied limit at
least 1 the page is exactly the slice from offset of limit elements,
clipped to the sequence bounds; an omitted (or zero) limit yields
everything from the offset to the end; an offset at or past the length
yields the empty page without error; and the reported total is the
length of the sorted sequence before pagination while count is the page
length. -/
theorem paginate_slice_amended :
    (∀ (l : List AppRecord) (off : Nat) (n : Int), 1 ≤ n →
        paginate l (off : Int) (some n) = (l.drop off).take n.toNat) ∧
    (∀ (l : List AppRecord) (off : Nat),
        paginate l (off : Int) none = l.drop off) ∧
    (∀ (l : List AppRecord) (off : Nat), l.length ≤ off →
        paginate l (off : Int) none = []) ∧
    (∀ (apps : List AppRecord) (limit : Option Int) (off : Int)
        (resp : ListResponse),
        getApps apps limit off "name" "asc" = .ok resp →
        resp.total = apps.length ∧ resp.count = resp.results.length) := by
  refine ⟨fun l off n h => paginate_some_pos l off n h,
    fun l off => paginate_none_nat l off, ?_, ?_⟩
  · intro l off hlen
    rw [paginate_none_nat l off]
    exact List.drop_eq_nil_of_le hlen
  · intro apps limit off resp h
    have hred : getApps apps limit off "name" "asc" =
        (do
          let sortedApps ← sortApps .name false apps
          let page := paginate sortedApps off limit
          (.ok ⟨sortedApps.length, page.length, page⟩ :
            Except ApiError ListResponse)) := rfl
    have hs : sortApps .name false apps =
        .ok (apps.mergeSort (sortLe .name false)) := by
      unfold sortApps
      rw [if_pos (keysComparable_name apps)]
    rw [hred, hs] at h
    simp only [Except.bind] at h
    injection h with h2
    subst h2
    exact ⟨(List.mergeSort_perm apps (sortLe .name false)).length_eq, rfl⟩

/-- Witness for paginate_slice_amended: a supplied limit of 1 at offset
0, an offset past the end, and a full response from the apps handler. -/
theorem paginate_slice_amended_witness :
    paginate [rAlpha, rBeta] ((0 : Nat) : Int) (some 1) =
      (([rAlpha, rBeta].drop 0).take (1 : Int).toNat) ∧
    paginate [rAlpha, rBeta] ((5 : Nat) : Int) none = ([] : List AppRecord) ∧
    ((⟨1, 1, [rAlpha]⟩ : ListResponse).total = 1 ∧
      (⟨1, 1, [rAlpha]⟩ : ListResponse).count =
        (⟨1, 1, [rAlpha]⟩ : ListResponse).results.length) := by
  refine ⟨paginate_slice_amended.1 [rAlpha, rBeta] 0 1 (by omega), ?_, ?_⟩
  · exact paginate_slice_amended.2.2.1 [rAlpha, rBeta] 5 (by decide)
  · have h := paginate_slice_amended.2.2.2 [rAlpha] none 0
      ⟨1, 1, [rAlpha]⟩ (by
        simp [getApps, fieldOfString, sortApps, keysComparable, sortKey, sortLe,
          pvLtB, List.mergeSort, PyVal.isStrV, PyVal.isIntV,
          rAlpha, Except.bind, paginate, pySlice, sliceIdx]
        rfl)
    exact h

/-- Claim C9: an explicitly supplied limit of 0 is treated exactly like
an omitted limit by the shared pagination code: the page is the whole
sequence from the offset to the end, not an empty page. -/
theorem zero_limit_is_omitted :
    ∀ (l : List AppRecord) (offset : Int),
      paginate l offset (some 0) = paginate l offset none ∧
      ∀ off : Nat, paginate l (off : Int) (some 0) = l.drop off := by
  intro l offset
  refine ⟨rfl, ?_⟩
  intro off
  have h : paginate l (off : Int) (some 0) = paginate l (off : Int) none := rfl
  rw [h]
  exact paginate_none_nat l off

/-- Claim C10: a negative offset is not rejected as an invalid argument:
the apps handler still answers, and pagination interprets a negative
offset relative to the end of the sequence, offset -1 with no limit
returning exactly the last record. -/
theorem negative_offset_accepted :
    (∀ (apps : List AppRecord) (off : Int), off < 0 →
        ∃ resp, getApps apps none off "name" "asc" = .ok resp) ∧
    (∀ (l : List AppRecord) (a : AppRecord),
        paginate (l ++ [a]) (-1) none = [a]) := by
  constructor
  · intro apps off hoff
    have hred : getApps apps none off "name" "asc" =
        (do
          let sortedApps ← sortApps .name false apps
          let page := paginate sortedApps off none
          (.ok ⟨sortedApps.length, page.length, page⟩ :
            Except ApiError ListResponse)) := rfl
    have hs : sortApps .name false apps =
        .ok (apps.mergeSort (sortLe .name false)) := by
      unfold sortApps
      rw [if_pos (keysComparable_name apps)]
    rw [hred, hs]
    exact ⟨_, rfl⟩
  · intro l a
    simp only [paginate, pySlice, sliceIdx, if_pos (by omega : (-1 : Int) < 0),
      Int.ofNat_eq_coe, List.length_append, List.length_cons, List.length_nil]
    have ha : ((((l.length + (0 + 1)) : Nat) : Int) + -1).toNat = l.length := by
      omega
    rw [ha, List.drop_left]
    have hb : l.length + (0 + 1) - l.length = 1 := by omega
    rw [hb]
    rfl

/-- Claim C7: random pick on an empty snapshot returns the no-apps
error (never an out-of-bounds access), and on a non-empty snapshot it
returns a member of the snapshot, whatever the draw. -/
theorem random_pick_safe :
    ∀ (apps : List AppRecord) (d : Nat),
      (apps = [] → getRandomApp apps d = .error .noApps) ∧
      (apps ≠ [] → ∃ r, getRandomApp apps d = .ok r ∧ r ∈ apps) := by
  intro apps d
  constructor
  · rintro rfl
    rfl
  · intro hne
    match apps with
    | [] => exact absurd rfl hne
    | a :: rest =>
        exact ⟨_, rfl, List.get_mem _ _ _⟩

/-- Witness for random_pick_safe on a one-record snapshot with draw 7. -/
theorem random_pick_safe_witness :
    ∃ r, getRandomApp [rAlpha] 7 = .ok r ∧ r ∈ [rAlpha] :=
  (random_pick_safe [rAlpha] 7).2 (by decide)

theorem contains_iff_mem {l : List String} {a : String} :
    l.contains a = true ↔ a ∈ l := by
  simp

theorem bumpCat_key_origin {p : String × Nat} {m : List (String × Nat)}
    {c : String} (h : p ∈ bumpCat m c) : p.1 = c ∨ ∃ q ∈ m, p.1 = q.1 := by
  unfold bumpCat at h
  split at h
  · rcases List.mem_map.mp h with ⟨q, hq, heq⟩
    right
    refine ⟨q, hq, ?_⟩
    by_cases hqc : q.1 = c
    · rw [if_pos hqc] at heq
      rw [← heq]
    · rw [if_neg hqc] at heq
      rw [← heq]
  · rcases List.mem_append.mp h with h2 | h2
    · right
      exact ⟨p, h2, rfl⟩
    · left
      simp at h2
      simp [h2]

theorem catsFold_key_origin :
    ∀ (cats : List String) (m : List (String × Nat)) (p : String × Nat),
      p ∈ cats.foldl (fun m2 c => if c = "" then m2 else bumpCat m2 c) m →
      p.1 ∈ cats ∨ ∃ q ∈ m, p.1 = q.1
  | [], _, p, h => Or.inr ⟨p, h, rfl⟩
  | c :: cats, m, p, h => by
      rw [List.foldl_cons] at h
      rcases catsFold_key_origin cats (if c = "" then m else bumpCat m c) p h with
        h1 | ⟨q, hq, he⟩
      · exact Or.inl (List.mem_cons_of_mem _ h1)
      · by_cases hc : c = ""
        · rw [if_pos hc] at hq
          exact Or.inr ⟨q, hq, he⟩
        · rw [if_neg hc] at hq
          rcases bumpCat_key_origin hq with h2 | ⟨q2, hq2, he2⟩
          · exact Or.inl (by rw [he.trans h2]; exact List.mem_cons_self _ _)
          · exact Or.inr ⟨q2, hq2, he.trans he2⟩

theorem countCats_key_origin :
    ∀ (apps : List AppRecord) (m : List (String × Nat)) (p : String × Nat),
      p ∈ apps.foldl
        (fun m2 r => r.categories.foldl
          (fun m3 c => if c = "" then m3 else bumpCat m3 c) m2) m →
      (∃ r ∈ apps, p.1 ∈ r.categories) ∨ ∃ q ∈ m, p.1 = q.1
  | [], _, p, h => Or.inr ⟨p, h, rfl⟩
  | r :: apps, m, p, h => by
      rw [List.foldl_cons] at h
      rcases countCats_key_origin apps _ p h with ⟨r2, hr2, hin⟩ | ⟨q, hq, he⟩
      · exact Or.inl ⟨r2, List.mem_cons_of_mem _ hr2, hin⟩
      · rcases catsFold_key_origin r.categories m q hq with h1 | ⟨q2, hq2, he2⟩
        · exact Or.inl ⟨r, List.mem_cons_self _ _, by rw [he]; exact h1⟩
        · exact Or.inr ⟨q2, hq2, he.trans he2⟩

theorem mem_countCats_origin {apps : List AppRecord} {p : String × Nat}
    (h : p ∈ countCats apps) : ∃ r ∈ apps, p.1 ∈ r.categories := by
  rcases countCats_key_origin apps [] p h with h1 | ⟨q, hq, _⟩
  · exact h1
  · exact absurd hq (List.not_mem_nil q)

/-- Claim C5: filtering by category fails with the not-found error
exactly when the requested name lies in no record's categories sequence
(the union of all per-record category sequences); when the name is in
that union the operation succeeds and returns exactly the records whose
categories contain the name under case-sensitive match; and the
categories.py and index.py implementations agree on every input. -/
theorem category_notfound_iff_unknown :
    ∀ (apps : List AppRecord) (name : String),
      (getAppsByCategoryStage apps name = .error .notFound ↔
        ∀ r ∈ apps, name ∉ r.categories) ∧
      ((∃ r ∈ apps, name ∈ r.categories) →
        getAppsByCategoryStage apps name =
          .ok (apps.filter (fun r => r.categories.contains name))) ∧
      getCategoryApps apps name = getAppsByCategoryStage apps name := by
  intro apps name
  cases hA : apps.any (fun r => r.categories.contains name) with
  | true =>
      have hex : ∃ r ∈ apps, name ∈ r.categories := by
        rcases List.any_eq_true.mp hA with ⟨r, hr, hc⟩
        exact ⟨r, hr, contains_iff_mem.mp hc⟩
      have hstage : getAppsByCategoryStage apps name =
          .ok (apps.filter (fun r => r.categories.contains name)) := by
        unfold getAppsByCategoryStage
        rw [if_pos hA]
      refine ⟨?_, fun _ => hstage, ?_⟩
      · rw [hstage]
        constructor
        · intro hcon
          exact Except.noConfusion hcon
        · intro hall
          rcases hex with ⟨r, hr, hc⟩
          exact absurd hc (hall r hr)
      · rcases hex with ⟨r, hr, hc⟩
        have hmemf : r ∈ apps.filter (fun r => r.categories.contains name) :=
          List.mem_filter.mpr ⟨hr, contains_iff_mem.mpr hc⟩
        have hne : apps.filter (fun r => r.categories.contains name) ≠ [] := by
          intro h0
          rw [h0] at hmemf
          exact List.not_mem_nil _ hmemf
        have hie : (apps.filter (fun r => r.categories.contains name)).isEmpty
            = false := List.isEmpty_eq_false.mpr hne
        rw [hstage]
        simp only [getCategoryApps, hie, Bool.false_eq_true, if_false]
  | false =>
      have hnall : ∀ r ∈ apps, name ∉ r.categories := by
        intro r hr hc
        exact List.any_eq_false.mp hA r hr (contains_iff_mem.mpr hc)
      have hstage : getAppsByCategoryStage apps name = .error .notFound := by
        unfold getAppsByCategoryStage
        rw [hA]
        rfl
      refine ⟨?_, ?_, ?_⟩
      · rw [hstage]
        exact ⟨fun _ => hnall, fun _ => rfl⟩
      · rintro ⟨r, hr, hc⟩
        exact absurd hc (hnall r hr)
      · have hfil : apps.filter (fun r => r.categories.contains name) = [] :=
          List.filter_eq_nil_iff.mpr
            (fun r hr hc => hnall r hr (contains_iff_mem.mp hc))
        have hcats : (getAllCategories apps).any (fun c => c.1 = name) = false := by
          rw [List.any_eq_false]
          intro x hx hxn
          have hx2 : x ∈ countCats apps :=
            (List.mergeSort_perm _ catCountLe).subset hx
          rcases mem_countCats_origin hx2 with ⟨r, hr, hin⟩
          have hmemn : name ∈ r.categories := by
            rwa [of_decide_eq_true hxn] at hin
          exact hnall r hr hmemn
        rw [hstage]
        simp only [getCategoryApps, hfil, List.isEmpty_nil, if_true, hcats,
          Bool.false_eq_true, if_false]

/-- Witness for category_notfound_iff_unknown: the known category Games
on a one-record snapshot succeeds with the filtered records. -/
theorem category_notfound_iff_unknown_witness :
    getAppsByCategoryStage [recGames] "Games" =
      .ok ([recGames].filter (fun r => r.categories.contains "Games")) :=
  (category_notfound_iff_unknown [recGames] "Games").2.1
    ⟨recGames, by decide, by decide⟩

/-- Claim C6 counterexample: over the three records with categories
Tools, Games-and-Tools, Games presented Tools-first, the aggregate
output is Tools before Games - the tie between the equal counts follows
first-encounter order, not ascending category name, so the output does
depend on record order, against the claim. -/
theorem categories_tiebreak_counterexample :
    getAllCategories [recTools, recBoth, recGames] =
      [("Tools", 2), ("Games", 2)] ∧
    getAllCategories [recTools, recBoth, recGames] ≠
      [("Games", 2), ("Tools", 2)] := by
  have h : getAllCategories [recTools, recBoth, recGames] =
      [("Tools", 2), ("Games", 2)] := by
    simp [getAllCategories, countCats, bumpCat, recTools, recBoth, recGames,
      List.mergeSort, List.merge, catCountLe]
  refine ⟨h, ?_⟩
  rw [h]
  decide

/-- Claim C6 (amended): the aggregate maps each non-empty category name
to its occurrence count and sorts the pairs by count descending, but a
tie between equal counts keeps the dictionary first-encounter order
rather than alphabetical order: the Games-first input yields Games
before Tools while the Tools-first input yields Tools before Games; in
every case the output counts are non-increasing. -/
theorem categories_count_order_amended :
    getAllCategories [recGames, recBoth, recTools] =
      [("Games", 2), ("Tools", 2)] ∧
    getAllCategories [recTools, recBoth, recGames] =
      [("Tools", 2), ("Games", 2)] ∧
    ∀ apps : List AppRecord,
      (getAllCategories apps).Pairwise (fun a b => b.2 ≤ a.2) := by
  refine ⟨?_, ?_, ?_⟩
  · simp [getAllCategories, countCats, bumpCat, recTools, recBoth, recGames,
      List.mergeSort, List.merge, catCountLe]
  · simp [getAllCategories, countCats, bumpCat, recTools, recBoth, recGames,
      List.mergeSort, List.merge, catCountLe]
  · intro apps
    refine (List.sorted_mergeSort catCountLe_trans catCountLe_total _).imp ?_
    intro a b hab
    simpa only [catCountLe, Bool.not_eq_true', decide_eq_false_iff_not,
      not_lt] using hab

/-- Witness for negative_offset_accepted: offset -1 on a one-record
snapshot is answered, and offset -1 on a two-record sequence returns
exactly the last record. -/
theorem negative_offset_accepted_witness :
    (∃ resp, getApps [rAlpha] none (-1) "name" "asc" = .ok resp) ∧
    paginate ([rBeta] ++ [rAlpha]) (-1) none = [rAlpha] :=
  ⟨negative_offset_accepted.1 [rAlpha] (-1) (by omega),
   negative_offset_accepted.2 [rBeta] rAlpha⟩
